import Mathlib

/-!
Shallow embedding of the two-asset efficient-frontier computation from
`two_asset_frontier.py` (function `plot_two_stock_efficient_frontier`).

Numbers are embedded exactly: scalar inputs and weights are rationals,
standard deviations are `Real.sqrt` of the (rational) variance, mirroring
`np.sqrt`.  `np.linspace(0, 1, n)` is the list `i / (n - 1)` for
`i = 0, …, n-1`.  `np.argmin` is `firstArgmin` (first index attaining the
minimum).  The global NumPy random generator consumed by
`np.random.rand(n_portfolios)` is modelled as an explicit stream
`rng : ℕ → ℚ` of draws; the source function takes no seed parameter.
-/

namespace TwoAssetFrontier

/-- A point of the parametric frontier: weight of stock A, expected
portfolio return, and portfolio standard deviation. -/
structure FrontierPoint where
  weightA : ℚ
  expectedReturn : ℚ
  stdDev : ℝ

instance : Inhabited FrontierPoint := ⟨⟨0, 0, 0⟩⟩

/-- Source line `n_points = 200`. -/
def n_points : ℕ := 200

/-- Source line `n_portfolios = 3000`. -/
def n_portfolios : ℕ := 3000

/-- Source step 1: `cov_AB = corr_AB * sigma_A * sigma_B`. -/
def cov_AB (corr_AB sigma_A sigma_B : ℚ) : ℚ := corr_AB * sigma_A * sigma_B

/-- Exact model of `np.linspace(0, 1, n)`: the `n` evenly spaced points
`i / (n - 1)`. -/
def linspace01 (n : ℕ) : List ℚ :=
  (List.range n).map (fun (i : ℕ) => (i : ℚ) / ((n : ℚ) - 1))

/-- Source line `weights = np.linspace(0, 1, n_points)`. -/
def weights : List ℚ := linspace01 n_points

/-- Source line `p_return = w * mu_A + (1 - w) * mu_B`. -/
def p_return (mu_A mu_B w : ℚ) : ℚ := w * mu_A + (1 - w) * mu_B

/-- Source line
`p_var = (w**2)*(sigma_A**2) + ((1-w)**2)*(sigma_B**2) + 2*w*(1-w)*cov_AB`. -/
def p_var (sigma_A sigma_B corr_AB w : ℚ) : ℚ :=
  w ^ 2 * sigma_A ^ 2 + (1 - w) ^ 2 * sigma_B ^ 2 + 2 * w * (1 - w) * cov_AB corr_AB sigma_A sigma_B

/-- The frontier point generated at weight `w`: the loop body appends
`p_return` to `port_returns` and `np.sqrt(p_var)` to `port_stdevs`. -/
noncomputable def frontierPoint (mu_A mu_B sigma_A sigma_B corr_AB w : ℚ) : FrontierPoint :=
  ⟨w, p_return mu_A mu_B w, Real.sqrt (p_var sigma_A sigma_B corr_AB w)⟩

/-- The parametric frontier curve: one point per sampled weight, in weight
order (the source's parallel arrays `port_stdevs`, `port_returns`, zipped
with their weights). -/
noncomputable def curve (mu_A mu_B sigma_A sigma_B corr_AB : ℚ) : List FrontierPoint :=
  weights.map (frontierPoint mu_A mu_B sigma_A sigma_B corr_AB)

/-- The list of sampled variances (the arguments of `np.sqrt` in the loop). -/
def port_vars (sigma_A sigma_B corr_AB : ℚ) : List ℚ :=
  weights.map (p_var sigma_A sigma_B corr_AB)

/-- Source array `port_stdevs`: the square roots of the sampled variances. -/
noncomputable def port_stdevs (sigma_A sigma_B corr_AB : ℚ) : List ℝ :=
  (port_vars sigma_A sigma_B corr_AB).map (fun v => Real.sqrt (v : ℚ))

/-- Model of `np.argmin`: index of the first occurrence of the minimal
element of a list (`0` on the empty list). -/
def firstArgmin {α : Type} [LinearOrder α] : List α → ℕ
  | [] => 0
  | x :: xs =>
    match xs[firstArgmin xs]? with
    | none => 0
    | some y => if x ≤ y then 0 else firstArgmin xs + 1

/-- Source line `idx_min = np.argmin(port_stdevs)`. -/
noncomputable def idx_min (sigma_A sigma_B corr_AB : ℚ) : ℕ :=
  firstArgmin (port_stdevs sigma_A sigma_B corr_AB)

/-- Source lines `mvp_x = port_stdevs[idx_min]`, `mvp_y = port_returns[idx_min]`:
the minimum-variance portfolio, as the curve point at `idx_min`. -/
noncomputable def minVariancePoint (mu_A mu_B sigma_A sigma_B corr_AB : ℚ) : FrontierPoint :=
  (curve mu_A mu_B sigma_A sigma_B corr_AB).getD (idx_min sigma_A sigma_B corr_AB) default

/-- Source lines `x_inef = port_stdevs[:idx_min+1]`, `y_inef = port_returns[:idx_min+1]`:
the inefficient segment is the curve prefix up to and including `idx_min`. -/
noncomputable def inefficientSeg (mu_A mu_B sigma_A sigma_B corr_AB : ℚ) : List FrontierPoint :=
  (curve mu_A mu_B sigma_A sigma_B corr_AB).take (idx_min sigma_A sigma_B corr_AB + 1)

/-- Source lines `x_ef = port_stdevs[idx_min:]`, `y_ef = port_returns[idx_min:]`:
the efficient segment is the curve suffix from `idx_min` on. -/
noncomputable def efficientSeg (mu_A mu_B sigma_A sigma_B corr_AB : ℚ) : List FrontierPoint :=
  (curve mu_A mu_B sigma_A sigma_B corr_AB).drop (idx_min sigma_A sigma_B corr_AB)

/-- Source line `rand_w = np.random.rand(n_portfolios)`: the first
`n_portfolios` draws of the ambient random stream. -/
def rand_w (rng : ℕ → ℚ) : List ℚ := (List.range n_portfolios).map rng

/-- Source step 5: the random-portfolio cloud, one `(stdDev, return)` pair
per random weight, by the same formulas as the curve. -/
noncomputable def randSample (mu_A mu_B sigma_A sigma_B corr_AB : ℚ) (rng : ℕ → ℚ) :
    List (ℝ × ℚ) :=
  (rand_w rng).map
    (fun w => (Real.sqrt (p_var sigma_A sigma_B corr_AB w), p_return mu_A mu_B w))

/-- The structured numeric output of the computation (the data the source
hands to the plotting calls). -/
structure Output where
  curve : List FrontierPoint
  inefficient : List FrontierPoint
  efficient : List FrontierPoint
  minVariance : FrontierPoint
  randSample : List (ℝ × ℚ)

/-- The whole computational core of `plot_two_stock_efficient_frontier`,
with the ambient NumPy random state passed explicitly as the draw
stream `rng`. -/
noncomputable def plot_two_stock_efficient_frontier
    (mu_A mu_B sigma_A sigma_B corr_AB : ℚ) (rng : ℕ → ℚ) : Output :=
  { curve := curve mu_A mu_B sigma_A sigma_B corr_AB
    inefficient := inefficientSeg mu_A mu_B sigma_A sigma_B corr_AB
    efficient := efficientSeg mu_A mu_B sigma_A sigma_B corr_AB
    minVariance := minVariancePoint mu_A mu_B sigma_A sigma_B corr_AB
    randSample := randSample mu_A mu_B sigma_A sigma_B corr_AB rng }

/-! Basic facts about the sampled weights and the curve. -/

theorem length_weights : weights.length = n_points := by
  rw [weights, linspace01, List.length_map, List.length_range]

theorem getElem_weights (i : ℕ) (h : i < weights.length) :
    weights[i] = (i : ℚ) / 199 := by
  have h' : i < (List.range n_points).length := by
    rwa [length_weights, ← List.length_range (n := n_points)] at h
  simp only [weights, linspace01, List.getElem_map, List.getElem_range]
  norm_num [n_points]

theorem weights_mem_bounds {w : ℚ} (hw : w ∈ weights) : 0 ≤ w ∧ w ≤ 1 := by
  simp only [weights, linspace01, n_points, List.mem_map, List.mem_range] at hw
  obtain ⟨i, hi, rfl⟩ := hw
  have h199 : ((200 : ℕ) : ℚ) - 1 = 199 := by norm_num
  rw [h199]
  constructor
  · positivity
  · rw [div_le_one (by norm_num)]
    exact_mod_cast Nat.le_of_lt_succ hi

theorem weights_monotone (i j : ℕ) (hi : i < weights.length) (hj : j < weights.length)
    (hij : i ≤ j) : weights[i] ≤ weights[j] := by
  rw [getElem_weights i hi, getElem_weights j hj]
  gcongr

theorem length_curve (mu_A mu_B sigma_A sigma_B corr_AB : ℚ) :
    (curve mu_A mu_B sigma_A sigma_B corr_AB).length = n_points := by
  simp [curve, length_weights]

theorem getElem_curve (mu_A mu_B sigma_A sigma_B corr_AB : ℚ) (i : ℕ)
    (h : i < (curve mu_A mu_B sigma_A sigma_B corr_AB).length) :
    (curve mu_A mu_B sigma_A sigma_B corr_AB)[i] =
      frontierPoint mu_A mu_B sigma_A sigma_B corr_AB ((i : ℚ) / 199) := by
  have h' : i < weights.length := by simpa [curve] using h
  simp [curve, getElem_weights i h']

theorem mem_curve_iff (mu_A mu_B sigma_A sigma_B corr_AB : ℚ) (p : FrontierPoint) :
    p ∈ curve mu_A mu_B sigma_A sigma_B corr_AB ↔
      ∃ w ∈ weights, p = frontierPoint mu_A mu_B sigma_A sigma_B corr_AB w := by
  simp [curve, eq_comm]

theorem port_stdevs_eq_map (sigma_A sigma_B corr_AB : ℚ) :
    port_stdevs sigma_A sigma_B corr_AB =
      weights.map (fun w => Real.sqrt (p_var sigma_A sigma_B corr_AB w)) := by
  simp [port_stdevs, port_vars, List.map_map]

theorem length_port_stdevs (sigma_A sigma_B corr_AB : ℚ) :
    (port_stdevs sigma_A sigma_B corr_AB).length = n_points := by
  simp [port_stdevs, port_vars, length_weights]

/-! Specification of `firstArgmin` (the model of `np.argmin`). -/

theorem firstArgmin_cons_of_none {α : Type} [LinearOrder α] {x : α} {xs : List α}
    (hx : xs[firstArgmin xs]? = none) : firstArgmin (x :: xs) = 0 := by
  rw [firstArgmin, hx]

theorem firstArgmin_cons_of_le {α : Type} [LinearOrder α] {x y : α} {xs : List α}
    (hx : xs[firstArgmin xs]? = some y) (hle : x ≤ y) : firstArgmin (x :: xs) = 0 := by
  rw [firstArgmin, hx]
  simp [hle]

theorem firstArgmin_cons_of_not_le {α : Type} [LinearOrder α] {x y : α} {xs : List α}
    (hx : xs[firstArgmin xs]? = some y) (hle : ¬ x ≤ y) :
    firstArgmin (x :: xs) = firstArgmin xs + 1 := by
  rw [firstArgmin, hx]
  simp [hle]

theorem firstArgmin_idx_lt_of_some {α : Type} [LinearOrder α] {y : α} {xs : List α}
    (hx : xs[firstArgmin xs]? = some y) : firstArgmin xs < xs.length := by
  by_contra hc
  rw [List.getElem?_eq_none (Nat.le_of_not_lt hc)] at hx
  exact Option.noConfusion hx

theorem firstArgmin_cons_lt_length {α : Type} [LinearOrder α] (x : α) (xs : List α) :
    firstArgmin (x :: xs) < (x :: xs).length := by
  cases hx : xs[firstArgmin xs]? with
  | none =>
    rw [firstArgmin_cons_of_none hx]
    simp
  | some y =>
    have h := firstArgmin_idx_lt_of_some hx
    by_cases hle : x ≤ y
    · rw [firstArgmin_cons_of_le hx hle]
      simp
    · rw [firstArgmin_cons_of_not_le hx hle]
      simpa using Nat.succ_lt_succ h

theorem firstArgmin_lt_length {α : Type} [LinearOrder α] (l : List α) (h : l ≠ []) :
    firstArgmin l < l.length := by
  cases l with
  | nil => exact absurd rfl h
  | cons x xs => exact firstArgmin_cons_lt_length x xs

theorem firstArgmin_spec_le {α : Type} [LinearOrder α] :
    ∀ (l : List α) (i : ℕ) (hi : i < l.length) (hj : firstArgmin l < l.length),
      l[firstArgmin l] ≤ l[i]
  | [], i, hi, _ => absurd hi (by simp)
  | x :: xs, i, hi, hj => by
    cases hx : xs[firstArgmin xs]? with
    | none =>
      have hxs : xs = [] := by
        by_contra hc
        rw [List.getElem?_eq_getElem (firstArgmin_lt_length xs hc)] at hx
        exact Option.noConfusion hx
      subst hxs
      have hi0 : i = 0 := by
        simp only [List.length_cons, List.length_nil] at hi
        omega
      subst hi0
      simp [firstArgmin_cons_of_none hx]
    | some y =>
      have hfa : firstArgmin xs < xs.length := firstArgmin_idx_lt_of_some hx
      have hy : xs[firstArgmin xs] = y := by
        rw [List.getElem?_eq_getElem hfa] at hx
        exact Option.some.inj hx
      by_cases hle : x ≤ y
      · simp only [firstArgmin_cons_of_le hx hle, List.getElem_cons_zero]
        cases i with
        | zero => simp
        | succ k =>
          have hk : k < xs.length := by simpa using hi
          have hrec := firstArgmin_spec_le xs k hk hfa
          simp only [List.getElem_cons_succ]
          calc x ≤ y := hle
            _ = xs[firstArgmin xs] := hy.symm
            _ ≤ xs[k] := hrec
      · simp only [firstArgmin_cons_of_not_le hx hle, List.getElem_cons_succ]
        cases i with
        | zero =>
          simp only [List.getElem_cons_zero]
          rw [hy]
          exact le_of_lt (lt_of_not_le hle)
        | succ k =>
          have hk : k < xs.length := by simpa using hi
          simpa using firstArgmin_spec_le xs k hk hfa

theorem firstArgmin_spec_first {α : Type} [LinearOrder α] :
    ∀ (l : List α) (i : ℕ) (hi : i < firstArgmin l) (hj : firstArgmin l < l.length)
      (hi' : i < l.length), l[i] > l[firstArgmin l]
  | [], i, _, hj, _ => absurd hj (by simp [firstArgmin])
  | x :: xs, i, hi, hj, hi' => by
    cases hx : xs[firstArgmin xs]? with
    | none =>
      rw [firstArgmin_cons_of_none hx] at hi
      exact absurd hi (by omega)
    | some y =>
      have hfa : firstArgmin xs < xs.length := firstArgmin_idx_lt_of_some hx
      have hy : xs[firstArgmin xs] = y := by
        rw [List.getElem?_eq_getElem hfa] at hx
        exact Option.some.inj hx
      by_cases hle : x ≤ y
      · rw [firstArgmin_cons_of_le hx hle] at hi
        exact absurd hi (by omega)
      · rw [firstArgmin_cons_of_not_le hx hle] at hi
        simp only [firstArgmin_cons_of_not_le hx hle, List.getElem_cons_succ]
        cases i with
        | zero =>
          simp only [List.getElem_cons_zero, gt_iff_lt]
          rw [hy]
          exact lt_of_not_le hle
        | succ k =>
          have hk : k < firstArgmin xs := by omega
          have hk' : k < xs.length := by omega
          simpa using firstArgmin_spec_first xs k hk hfa hk'

theorem firstArgmin_map_of_le_iff {α β : Type} [LinearOrder α] [LinearOrder β] (f : α → β) :
    ∀ (l : List α), (∀ a ∈ l, ∀ b ∈ l, (f a ≤ f b ↔ a ≤ b)) →
      firstArgmin (l.map f) = firstArgmin l
  | [], _ => rfl
  | x :: xs, hf => by
    have hxs : ∀ a ∈ xs, ∀ b ∈ xs, (f a ≤ f b ↔ a ≤ b) := fun a ha b hb =>
      hf a (List.mem_cons_of_mem x ha) b (List.mem_cons_of_mem x hb)
    have ih := firstArgmin_map_of_le_iff f xs hxs
    cases hx : xs[firstArgmin xs]? with
    | none =>
      have hx' : (xs.map f)[firstArgmin (xs.map f)]? = none := by
        rw [ih, List.getElem?_map, hx, Option.map_none']
      rw [List.map_cons, firstArgmin_cons_of_none hx', firstArgmin_cons_of_none hx]
    | some y =>
      have hfa : firstArgmin xs < xs.length := firstArgmin_idx_lt_of_some hx
      have hymem : y ∈ xs := by
        have hy : xs[firstArgmin xs] = y := by
          rw [List.getElem?_eq_getElem hfa] at hx
          exact Option.some.inj hx
        exact hy ▸ List.getElem_mem hfa
      have hx' : (xs.map f)[firstArgmin (xs.map f)]? = some (f y) := by
        rw [ih, List.getElem?_map, hx, Option.map_some']
      have hiff := hf x (List.mem_cons_self x xs) y (List.mem_cons_of_mem x hymem)
      by_cases hle : x ≤ y
      · rw [List.map_cons, firstArgmin_cons_of_le hx' (hiff.mpr hle),
          firstArgmin_cons_of_le hx hle]
      · rw [List.map_cons, firstArgmin_cons_of_not_le hx' (fun hc => hle (hiff.mp hc)),
          firstArgmin_cons_of_not_le hx hle, ih]

/-- firstArgmin is the unique index that attains the minimum and is strictly
beaten by no earlier index. -/
theorem firstArgmin_eq_of_spec {α : Type} [LinearOrder α] (l : List α) (m : ℕ)
    (hm : m < l.length) (hle : ∀ i (hi : i < l.length), l[m] ≤ l[i])
    (hfirst : ∀ i (hi : i < l.length), i < m → l[m] < l[i]) :
    firstArgmin l = m := by
  have hne : l ≠ [] := by
    intro h
    subst h
    simp at hm
  have hj : firstArgmin l < l.length := firstArgmin_lt_length l hne
  rcases lt_trichotomy (firstArgmin l) m with h | h | h
  · have h1 := hfirst (firstArgmin l) hj h
    have h2 := firstArgmin_spec_le l m hm hj
    exact absurd (lt_of_le_of_lt h2 h1) (lt_irrefl _)
  · exact h
  · have h1 := firstArgmin_spec_first l m h hj hm
    have h2 := hle (firstArgmin l) hj
    exact absurd (lt_of_le_of_lt h2 h1) (lt_irrefl _)

theorem step_down_le {α : Type} [LinearOrder α] (l : List α) (m : ℕ)
    (hdec : ∀ i, i + 1 ≤ m → (h : i + 1 < l.length) → l[i + 1] < l[i]) :
    ∀ i j, ∀ (hij : i ≤ j) (hjm : j ≤ m) (hj : j < l.length), l[j] ≤ l[i] := by
  intro i j
  induction j with
  | zero =>
    intro hij _ hj
    have : i = 0 := Nat.le_zero.mp hij
    subst this
    exact le_refl _
  | succ k ih =>
    intro hij hkm hj
    rcases Nat.lt_or_ge i (k + 1) with hik | hik
    · have hlt := hdec k hkm hj
      have hk : k < l.length := by omega
      exact le_trans (le_of_lt hlt) (ih (by omega) (by omega) hk)
    · have : i = k + 1 := by omega
      subst this
      exact le_refl _

theorem step_down_lt {α : Type} [LinearOrder α] (l : List α) (m : ℕ)
    (hdec : ∀ i, i + 1 ≤ m → (h : i + 1 < l.length) → l[i + 1] < l[i]) :
    ∀ i j, ∀ (hij : i < j) (hjm : j ≤ m) (hj : j < l.length), l[j] < l[i] := by
  intro i j
  induction j with
  | zero =>
    intro hij _ _
    exact absurd hij (Nat.not_lt_zero i)
  | succ k ih =>
    intro hij hkm hj
    have hlt := hdec k hkm hj
    rcases Nat.lt_or_ge i k with hik | hik
    · have hk : k < l.length := by omega
      exact lt_trans hlt (ih hik (by omega) hk)
    · have : i = k := by omega
      subst this
      exact hlt

theorem step_up_le {α : Type} [LinearOrder α] (l : List α) (m : ℕ)
    (hinc : ∀ i, m ≤ i → (h : i + 1 < l.length) → l[i] < l[i + 1]) :
    ∀ j, m ≤ j → (hj : j < l.length) → (hm : m < l.length) → l[m] ≤ l[j] := by
  intro j
  induction j with
  | zero =>
    intro hmj _ _
    have : m = 0 := Nat.le_zero.mp hmj
    subst this
    exact le_refl _
  | succ k ih =>
    intro hmj hj hm
    rcases Nat.lt_or_ge m (k + 1) with hmk | hmk
    · have hlt := hinc k (by omega) hj
      have hk : k < l.length := by omega
      exact le_trans (ih (by omega) hk hm) (le_of_lt hlt)
    · have : m = k + 1 := by omega
      subst this
      exact le_refl _

/-- A list that strictly decreases up to index `m` and strictly increases
afterwards has its first minimum exactly at `m`. -/
theorem firstArgmin_eq_of_unimodal {α : Type} [LinearOrder α] (l : List α) (m : ℕ)
    (hm : m < l.length)
    (hdec : ∀ i, i + 1 ≤ m → (h : i + 1 < l.length) → l[i + 1] < l[i])
    (hinc : ∀ i, m ≤ i → (h : i + 1 < l.length) → l[i] < l[i + 1]) :
    firstArgmin l = m := by
  apply firstArgmin_eq_of_spec l m hm
  · intro i hi
    rcases le_or_lt i m with h | h
    · exact step_down_le l m hdec i m h (le_refl m) hm
    · exact step_up_le l m hinc i (le_of_lt h) hi hm
  · intro i hi him
    exact step_down_lt l m hdec i m him (le_refl m) hm

/-! Non-negativity of the sampled variance under the valid-input constraints. -/

theorem p_var_nonneg (sigma_A sigma_B corr_AB w : ℚ) (hA : 0 ≤ sigma_A) (hB : 0 ≤ sigma_B)
    (h1 : -1 ≤ corr_AB) (h2 : corr_AB ≤ 1) (hw0 : 0 ≤ w) (hw1 : w ≤ 1) :
    0 ≤ p_var sigma_A sigma_B corr_AB w := by
  have hAB : 0 ≤ sigma_A * sigma_B := mul_nonneg hA hB
  have hw : 0 ≤ w * (1 - w) := mul_nonneg hw0 (by linarith)
  have hkey : 0 ≤ w * (1 - w) * (sigma_A * sigma_B) * (corr_AB + 1) :=
    mul_nonneg (mul_nonneg hw hAB) (by linarith)
  unfold p_var cov_AB
  nlinarith [sq_nonneg (w * sigma_A - (1 - w) * sigma_B)]

theorem length_port_vars (sigma_A sigma_B corr_AB : ℚ) :
    (port_vars sigma_A sigma_B corr_AB).length = n_points := by
  simp [port_vars, length_weights]

theorem getElem_port_vars (sigma_A sigma_B corr_AB : ℚ) (i : ℕ)
    (h : i < (port_vars sigma_A sigma_B corr_AB).length) :
    (port_vars sigma_A sigma_B corr_AB)[i] =
      p_var sigma_A sigma_B corr_AB ((i : ℚ) / 199) := by
  have h' : i < weights.length := by simpa [port_vars] using h
  simp [port_vars, getElem_weights i h']

theorem port_vars_nonneg (sigma_A sigma_B corr_AB : ℚ) (hA : 0 ≤ sigma_A) (hB : 0 ≤ sigma_B)
    (h1 : -1 ≤ corr_AB) (h2 : corr_AB ≤ 1) :
    ∀ v ∈ port_vars sigma_A sigma_B corr_AB, 0 ≤ v := by
  intro v hv
  simp only [port_vars, List.mem_map] at hv
  obtain ⟨w, hw, rfl⟩ := hv
  obtain ⟨hw0, hw1⟩ := weights_mem_bounds hw
  exact p_var_nonneg _ _ _ _ hA hB h1 h2 hw0 hw1

/-- On valid inputs `np.argmin` over the standard deviations agrees with the
first minimum of the (rational) variances, because the square root is
monotone on non-negative arguments. -/
theorem idx_min_eq_firstArgmin_port_vars (sigma_A sigma_B corr_AB : ℚ) (hA : 0 ≤ sigma_A)
    (hB : 0 ≤ sigma_B) (h1 : -1 ≤ corr_AB) (h2 : corr_AB ≤ 1) :
    idx_min sigma_A sigma_B corr_AB = firstArgmin (port_vars sigma_A sigma_B corr_AB) := by
  unfold idx_min port_stdevs
  apply firstArgmin_map_of_le_iff
  intro a _ b hb
  have hb0 : 0 ≤ b := port_vars_nonneg _ _ _ hA hB h1 h2 b hb
  rw [Real.sqrt_le_sqrt_iff (by exact_mod_cast hb0)]
  exact Rat.cast_le

theorem idx_min_lt_n_points (sigma_A sigma_B corr_AB : ℚ) :
    idx_min sigma_A sigma_B corr_AB < n_points := by
  have hlen := length_port_stdevs sigma_A sigma_B corr_AB
  have hne : port_stdevs sigma_A sigma_B corr_AB ≠ [] := by
    intro h
    rw [h] at hlen
    simp [n_points] at hlen
  have h := firstArgmin_lt_length _ hne
  rwa [hlen] at h

theorem getElem_port_stdevs (sigma_A sigma_B corr_AB : ℚ) (i : ℕ)
    (h : i < (port_stdevs sigma_A sigma_B corr_AB).length) :
    (port_stdevs sigma_A sigma_B corr_AB)[i] =
      Real.sqrt (p_var sigma_A sigma_B corr_AB ((i : ℚ) / 199)) := by
  have h' : i < (port_vars sigma_A sigma_B corr_AB).length := by
    simpa [port_stdevs] using h
  simp [port_stdevs, getElem_port_vars sigma_A sigma_B corr_AB i h']

theorem minVariancePoint_eq_getElem (mu_A mu_B sigma_A sigma_B corr_AB : ℚ)
    (h : idx_min sigma_A sigma_B corr_AB <
        (curve mu_A mu_B sigma_A sigma_B corr_AB).length) :
    minVariancePoint mu_A mu_B sigma_A sigma_B corr_AB =
      (curve mu_A mu_B sigma_A sigma_B corr_AB)[idx_min sigma_A sigma_B corr_AB] :=
  List.getD_eq_getElem _ _ h

theorem length_randSample (mu_A mu_B sigma_A sigma_B corr_AB : ℚ) (rng : ℕ → ℚ) :
    (randSample mu_A mu_B sigma_A sigma_B corr_AB rng).length = n_portfolios := by
  simp [randSample, rand_w]

theorem getElem_randSample (mu_A mu_B sigma_A sigma_B corr_AB : ℚ) (rng : ℕ → ℚ) (i : ℕ)
    (h : i < (randSample mu_A mu_B sigma_A sigma_B corr_AB rng).length) :
    (randSample mu_A mu_B sigma_A sigma_B corr_AB rng)[i] =
      (Real.sqrt (p_var sigma_A sigma_B corr_AB (rng i)), p_return mu_A mu_B (rng i)) := by
  have h' : i < n_portfolios := by
    rw [length_randSample] at h
    exact h
  simp [randSample, rand_w]

/-! The claims. -/

/-- C9: for every input (and every state of the ambient random generator) the
frontier curve has exactly 200 points and the random-portfolio sample exactly
3000: both counts are fixed constants of the implementation, not influenced by
any input parameter. -/
theorem C9_fixed_sizes (mu_A mu_B sigma_A sigma_B corr_AB : ℚ) (rng : ℕ → ℚ) :
    ((plot_two_stock_efficient_frontier mu_A mu_B sigma_A sigma_B corr_AB rng).curve).length
        = 200 ∧
    ((plot_two_stock_efficient_frontier mu_A mu_B sigma_A sigma_B corr_AB rng).randSample).length
        = 3000 := by
  constructor
  · simp only [plot_two_stock_efficient_frontier]
    rw [length_curve]
    rfl
  · simp only [plot_two_stock_efficient_frontier]
    rw [length_randSample]
    rfl

/-- C2: on valid inputs (non-negative volatilities, correlation in `[-1, 1]`)
the variance at every sampled weight is non-negative, so the square root is
never taken of a negative number: every curve point has `stdDev ≥ 0`, and its
`stdDev` equals the spec formula `sqrt (max (variance w) 0)`. -/
theorem C2_stdDev_nonneg (mu_A mu_B sigma_A sigma_B corr_AB : ℚ)
    (hA : 0 ≤ sigma_A) (hB : 0 ≤ sigma_B) (h1 : -1 ≤ corr_AB) (h2 : corr_AB ≤ 1) :
    (∀ w ∈ weights, 0 ≤ p_var sigma_A sigma_B corr_AB w) ∧
    (∀ p ∈ curve mu_A mu_B sigma_A sigma_B corr_AB,
      0 ≤ p.stdDev ∧
      p.stdDev = Real.sqrt (max (p_var sigma_A sigma_B corr_AB p.weightA) 0)) := by
  have hvar : ∀ w ∈ weights, 0 ≤ p_var sigma_A sigma_B corr_AB w := by
    intro w hw
    obtain ⟨hw0, hw1⟩ := weights_mem_bounds hw
    exact p_var_nonneg _ _ _ _ hA hB h1 h2 hw0 hw1
  refine ⟨hvar, ?_⟩
  intro p hp
  obtain ⟨w, hw, rfl⟩ := (mem_curve_iff mu_A mu_B sigma_A sigma_B corr_AB p).mp hp
  refine ⟨Real.sqrt_nonneg _, ?_⟩
  show Real.sqrt (p_var sigma_A sigma_B corr_AB w) =
    Real.sqrt (max ((p_var sigma_A sigma_B corr_AB w : ℚ) : ℝ) 0)
  rw [max_eq_left (show (0 : ℝ) ≤ _ by exact_mod_cast hvar w hw)]

/-- C7: on valid inputs the first curve point is the pure stock-B portfolio
(`weightA = 0`, return `mu_B`, standard deviation `sigma_B`) and the last
curve point is the pure stock-A portfolio (`weightA = 1`, return `mu_A`,
standard deviation `sigma_A`). -/
theorem C7_boundary_points (mu_A mu_B sigma_A sigma_B corr_AB : ℚ)
    (hA : 0 ≤ sigma_A) (hB : 0 ≤ sigma_B) (h1 : -1 ≤ corr_AB) (h2 : corr_AB ≤ 1) :
    (curve mu_A mu_B sigma_A sigma_B corr_AB).head? =
      some ⟨0, mu_B, (sigma_B : ℝ)⟩ ∧
    (curve mu_A mu_B sigma_A sigma_B corr_AB).getLast? =
      some ⟨1, mu_A, (sigma_A : ℝ)⟩ := by
  have hlen : (curve mu_A mu_B sigma_A sigma_B corr_AB).length = 200 := by
    rw [length_curve]
    rfl
  constructor
  · rw [List.head?_eq_getElem?, List.getElem?_eq_getElem (by omega),
      getElem_curve _ _ _ _ _ 0 (by omega)]
    have hw : ((0 : ℕ) : ℚ) / 199 = 0 := by norm_num
    rw [hw]
    have hret : p_return mu_A mu_B 0 = mu_B := by
      unfold p_return
      ring
    have hvar : p_var sigma_A sigma_B corr_AB 0 = sigma_B ^ 2 := by
      unfold p_var cov_AB
      ring
    unfold frontierPoint
    rw [hret, hvar]
    have : Real.sqrt ((sigma_B : ℚ) ^ 2 : ℚ) = (sigma_B : ℝ) := by
      push_cast
      exact Real.sqrt_sq (by exact_mod_cast hB)
    rw [this]
  · rw [List.getLast?_eq_getElem?, hlen]
    have hidx : (200 : ℕ) - 1 = 199 := by norm_num
    rw [hidx, List.getElem?_eq_getElem (by omega),
      getElem_curve _ _ _ _ _ 199 (by omega)]
    have hw : ((199 : ℕ) : ℚ) / 199 = 1 := by norm_num
    rw [hw]
    have hret : p_return mu_A mu_B 1 = mu_A := by
      unfold p_return
      ring
    have hvar : p_var sigma_A sigma_B corr_AB 1 = sigma_A ^ 2 := by
      unfold p_var cov_AB
      ring
    unfold frontierPoint
    rw [hret, hvar]
    have : Real.sqrt ((sigma_A : ℚ) ^ 2 : ℚ) = (sigma_A : ℝ) := by
      push_cast
      exact Real.sqrt_sq (by exact_mod_cast hA)
    rw [this]

/-- C3: on valid inputs the minimum-variance point's `stdDev` is less than or
equal to the `stdDev` of every curve point, and any curve point attaining the
same minimal `stdDev` has a `weightA` at least the minimum-variance point's:
the first minimizer in scan order, the one of lowest weight, is selected. -/
theorem C3_minVariance_minimal (mu_A mu_B sigma_A sigma_B corr_AB : ℚ)
    (hA : 0 ≤ sigma_A) (hB : 0 ≤ sigma_B) (h1 : -1 ≤ corr_AB) (h2 : corr_AB ≤ 1) :
    (∀ p ∈ curve mu_A mu_B sigma_A sigma_B corr_AB,
      (minVariancePoint mu_A mu_B sigma_A sigma_B corr_AB).stdDev ≤ p.stdDev) ∧
    (∀ p ∈ curve mu_A mu_B sigma_A sigma_B corr_AB,
      p.stdDev = (minVariancePoint mu_A mu_B sigma_A sigma_B corr_AB).stdDev →
      (minVariancePoint mu_A mu_B sigma_A sigma_B corr_AB).weightA ≤ p.weightA) := by
  have hjn : idx_min sigma_A sigma_B corr_AB < n_points :=
    idx_min_lt_n_points sigma_A sigma_B corr_AB
  have hjc : idx_min sigma_A sigma_B corr_AB <
      (curve mu_A mu_B sigma_A sigma_B corr_AB).length := by
    rw [length_curve]
    exact hjn
  have hjs : idx_min sigma_A sigma_B corr_AB <
      (port_stdevs sigma_A sigma_B corr_AB).length := by
    rw [length_port_stdevs]
    exact hjn
  have hstd : ∀ i (hic : i < (curve mu_A mu_B sigma_A sigma_B corr_AB).length)
      (his : i < (port_stdevs sigma_A sigma_B corr_AB).length),
      (curve mu_A mu_B sigma_A sigma_B corr_AB)[i].stdDev =
        (port_stdevs sigma_A sigma_B corr_AB)[i] := by
    intro i hic his
    rw [getElem_curve mu_A mu_B sigma_A sigma_B corr_AB i hic,
      getElem_port_stdevs sigma_A sigma_B corr_AB i his]
    rfl
  have hwA : ∀ i (hic : i < (curve mu_A mu_B sigma_A sigma_B corr_AB).length),
      (curve mu_A mu_B sigma_A sigma_B corr_AB)[i].weightA = (i : ℚ) / 199 := by
    intro i hic
    rw [getElem_curve mu_A mu_B sigma_A sigma_B corr_AB i hic]
    rfl
  have hmvp := minVariancePoint_eq_getElem mu_A mu_B sigma_A sigma_B corr_AB hjc
  constructor
  · intro p hp
    obtain ⟨i, hi, rfl⟩ := List.mem_iff_getElem.mp hp
    have his : i < (port_stdevs sigma_A sigma_B corr_AB).length := by
      rw [length_port_stdevs]
      rw [length_curve] at hi
      exact hi
    rw [hmvp, hstd _ hjc hjs, hstd _ hi his]
    exact firstArgmin_spec_le (port_stdevs sigma_A sigma_B corr_AB) i his hjs
  · intro p hp heq
    obtain ⟨i, hi, rfl⟩ := List.mem_iff_getElem.mp hp
    have his : i < (port_stdevs sigma_A sigma_B corr_AB).length := by
      rw [length_port_stdevs]
      rw [length_curve] at hi
      exact hi
    rcases le_or_lt (idx_min sigma_A sigma_B corr_AB) i with hle | hlt
    · rw [hmvp, hwA _ hjc, hwA _ hi]
      gcongr
    · have hgt := firstArgmin_spec_first (port_stdevs sigma_A sigma_B corr_AB) i hlt hjs his
      rw [hmvp, hstd _ hjc hjs, hstd _ hi his] at heq
      exact absurd heq (ne_of_gt hgt)

/-- C4: the inefficient segment is exactly the curve prefix up to and
including the minimum-variance index and the efficient segment exactly the
suffix from that index; the minimum-variance point is the last point of the
first and the head of the second (the single shared boundary point), and the
prefix concatenated with the suffix minus the duplicated boundary point
reproduces the curve in order. -/
theorem C4_segment_split (mu_A mu_B sigma_A sigma_B corr_AB : ℚ)
    (hA : 0 ≤ sigma_A) (hB : 0 ≤ sigma_B) (h1 : -1 ≤ corr_AB) (h2 : corr_AB ≤ 1) :
    inefficientSeg mu_A mu_B sigma_A sigma_B corr_AB ++
        (efficientSeg mu_A mu_B sigma_A sigma_B corr_AB).tail =
      curve mu_A mu_B sigma_A sigma_B corr_AB ∧
    (inefficientSeg mu_A mu_B sigma_A sigma_B corr_AB).getLast? =
      some (minVariancePoint mu_A mu_B sigma_A sigma_B corr_AB) ∧
    (efficientSeg mu_A mu_B sigma_A sigma_B corr_AB).head? =
      some (minVariancePoint mu_A mu_B sigma_A sigma_B corr_AB) ∧
    (inefficientSeg mu_A mu_B sigma_A sigma_B corr_AB).length +
        (efficientSeg mu_A mu_B sigma_A sigma_B corr_AB).length =
      (curve mu_A mu_B sigma_A sigma_B corr_AB).length + 1 := by
  have hjn : idx_min sigma_A sigma_B corr_AB < n_points :=
    idx_min_lt_n_points sigma_A sigma_B corr_AB
  have hjc : idx_min sigma_A sigma_B corr_AB <
      (curve mu_A mu_B sigma_A sigma_B corr_AB).length := by
    rw [length_curve]
    exact hjn
  have hmvp := minVariancePoint_eq_getElem mu_A mu_B sigma_A sigma_B corr_AB hjc
  refine ⟨?_, ?_, ?_, ?_⟩
  · unfold inefficientSeg efficientSeg
    rw [List.tail_drop]
    exact List.take_append_drop _ _
  · have hlt : (inefficientSeg mu_A mu_B sigma_A sigma_B corr_AB).length =
        idx_min sigma_A sigma_B corr_AB + 1 := by
      unfold inefficientSeg
      rw [List.length_take]
      omega
    rw [List.getLast?_eq_getElem?, hlt]
    have hidx : idx_min sigma_A sigma_B corr_AB + 1 - 1 =
        idx_min sigma_A sigma_B corr_AB := by omega
    rw [hidx]
    have hjt : idx_min sigma_A sigma_B corr_AB <
        (inefficientSeg mu_A mu_B sigma_A sigma_B corr_AB).length := by omega
    rw [List.getElem?_eq_getElem hjt]
    unfold inefficientSeg
    rw [List.getElem_take, hmvp]
  · unfold efficientSeg
    rw [List.head?_drop, List.getElem?_eq_getElem hjc, hmvp]
  · unfold inefficientSeg efficientSeg
    rw [List.length_take, List.length_drop]
    omega

/-- Witness for C2 at the reference UI's default inputs. -/
theorem C2_stdDev_nonneg_witness :
    ((0 : ℚ) ≤ 1/5 ∧ (0 : ℚ) ≤ 3/10 ∧ (-1 : ℚ) ≤ 1/5 ∧ (1/5 : ℚ) ≤ 1) ∧
    ((∀ w ∈ weights, 0 ≤ p_var (1/5) (3/10) (1/5) w) ∧
     (∀ p ∈ curve (1/10) (3/20) (1/5) (3/10) (1/5),
       0 ≤ p.stdDev ∧
       p.stdDev = Real.sqrt (max (p_var (1/5) (3/10) (1/5) p.weightA) 0))) :=
  ⟨⟨by norm_num, by norm_num, by norm_num, by norm_num⟩,
   C2_stdDev_nonneg (1/10) (3/20) (1/5) (3/10) (1/5)
     (by norm_num) (by norm_num) (by norm_num) (by norm_num)⟩

/-- Witness for C3 at the reference UI's default inputs. -/
theorem C3_minVariance_minimal_witness :
    ((0 : ℚ) ≤ 1/5 ∧ (0 : ℚ) ≤ 3/10 ∧ (-1 : ℚ) ≤ 1/5 ∧ (1/5 : ℚ) ≤ 1) ∧
    ((∀ p ∈ curve (1/10) (3/20) (1/5) (3/10) (1/5),
       (minVariancePoint (1/10) (3/20) (1/5) (3/10) (1/5)).stdDev ≤ p.stdDev) ∧
     (∀ p ∈ curve (1/10) (3/20) (1/5) (3/10) (1/5),
       p.stdDev = (minVariancePoint (1/10) (3/20) (1/5) (3/10) (1/5)).stdDev →
       (minVariancePoint (1/10) (3/20) (1/5) (3/10) (1/5)).weightA ≤ p.weightA)) :=
  ⟨⟨by norm_num, by norm_num, by norm_num, by norm_num⟩,
   C3_minVariance_minimal (1/10) (3/20) (1/5) (3/10) (1/5)
     (by norm_num) (by norm_num) (by norm_num) (by norm_num)⟩

/-- Witness for C4 at the reference UI's default inputs. -/
theorem C4_segment_split_witness :
    ((0 : ℚ) ≤ 1/5 ∧ (0 : ℚ) ≤ 3/10 ∧ (-1 : ℚ) ≤ 1/5 ∧ (1/5 : ℚ) ≤ 1) ∧
    (inefficientSeg (1/10) (3/20) (1/5) (3/10) (1/5) ++
        (efficientSeg (1/10) (3/20) (1/5) (3/10) (1/5)).tail =
      curve (1/10) (3/20) (1/5) (3/10) (1/5) ∧
    (inefficientSeg (1/10) (3/20) (1/5) (3/10) (1/5)).getLast? =
      some (minVariancePoint (1/10) (3/20) (1/5) (3/10) (1/5)) ∧
    (efficientSeg (1/10) (3/20) (1/5) (3/10) (1/5)).head? =
      some (minVariancePoint (1/10) (3/20) (1/5) (3/10) (1/5)) ∧
    (inefficientSeg (1/10) (3/20) (1/5) (3/10) (1/5)).length +
        (efficientSeg (1/10) (3/20) (1/5) (3/10) (1/5)).length =
      (curve (1/10) (3/20) (1/5) (3/10) (1/5)).length + 1) :=
  ⟨⟨by norm_num, by norm_num, by norm_num, by norm_num⟩,
   C4_segment_split (1/10) (3/20) (1/5) (3/10) (1/5)
     (by norm_num) (by norm_num) (by norm_num) (by norm_num)⟩

/-- Witness for C7 at the reference UI's default inputs. -/
theorem C7_boundary_points_witness :
    ((0 : ℚ) ≤ 1/5 ∧ (0 : ℚ) ≤ 3/10 ∧ (-1 : ℚ) ≤ 1/5 ∧ (1/5 : ℚ) ≤ 1) ∧
    ((curve (1/10) (3/20) (1/5) (3/10) (1/5)).head? =
       some ⟨0, 3/20, ((3/10 : ℚ) : ℝ)⟩ ∧
     (curve (1/10) (3/20) (1/5) (3/10) (1/5)).getLast? =
       some ⟨1, 1/10, ((1/5 : ℚ) : ℝ)⟩) :=
  ⟨⟨by norm_num, by norm_num, by norm_num, by norm_num⟩,
   C7_boundary_points (1/10) (3/20) (1/5) (3/10) (1/5)
     (by norm_num) (by norm_num) (by norm_num) (by norm_num)⟩

/-- C1 counterexample: at correlation `2`, outside `[-1, 1]`, the computation
does not fail — the source contains no validation — and still returns a
well-defined 200-point frontier whose minimum-variance point lies on the
curve, rather than raising an InvalidParameter error before producing a
result. -/
theorem C1_counterexample :
    ((plot_two_stock_efficient_frontier (1/10) (3/20) (1/5) (1/5) 2
        (fun _ => 0)).curve).length = 200 ∧
    (plot_two_stock_efficient_frontier (1/10) (3/20) (1/5) (1/5) 2
        (fun _ => 0)).minVariance ∈
      (plot_two_stock_efficient_frontier (1/10) (3/20) (1/5) (1/5) 2
        (fun _ => 0)).curve := by
  constructor
  · simp only [plot_two_stock_efficient_frontier]
    rw [length_curve]
    rfl
  · simp only [plot_two_stock_efficient_frontier]
    have hjc : idx_min (1/5) (1/5) 2 < (curve (1/10) (3/20) (1/5) (1/5) 2).length := by
      rw [length_curve]
      exact idx_min_lt_n_points _ _ _
    rw [minVariancePoint_eq_getElem _ _ _ _ _ hjc]
    exact List.getElem_mem hjc

/-- C1 amended: the source validates nothing and never fails: for every
input — including negative volatilities and correlations outside `[-1, 1]` —
the computation returns a well-defined frontier of 200 points whose
minimum-variance point is a member of the curve; in particular the degenerate
valid inputs (equal means, equal volatilities, correlation ±1, zero
volatility) also produce a well-defined frontier rather than an error. -/
theorem C1_no_validation (mu_A mu_B sigma_A sigma_B corr_AB : ℚ) (rng : ℕ → ℚ) :
    ((plot_two_stock_efficient_frontier mu_A mu_B sigma_A sigma_B corr_AB
        rng).curve).length = 200 ∧
    (plot_two_stock_efficient_frontier mu_A mu_B sigma_A sigma_B corr_AB
        rng).minVariance ∈
      (plot_two_stock_efficient_frontier mu_A mu_B sigma_A sigma_B corr_AB
        rng).curve := by
  constructor
  · simp only [plot_two_stock_efficient_frontier]
    rw [length_curve]
    rfl
  · simp only [plot_two_stock_efficient_frontier]
    have hjc : idx_min sigma_A sigma_B corr_AB <
        (curve mu_A mu_B sigma_A sigma_B corr_AB).length := by
      rw [length_curve]
      exact idx_min_lt_n_points _ _ _
    rw [minVariancePoint_eq_getElem _ _ _ _ _ hjc]
    exact List.getElem_mem hjc

/-- C6 counterexample: the source function accepts no `randomSeed`; its
random sample is drawn from the ambient NumPy generator. Two calls with
identical declared inputs but different ambient random states return
different `randSample`s, so the full output is not reproducible from the
inputs (plus a seed) alone. -/
theorem C6_counterexample :
    (plot_two_stock_efficient_frontier (1/5) (1/10) (1/5) (3/10) (1/5)
        (fun _ => 0)).randSample ≠
    (plot_two_stock_efficient_frontier (1/5) (1/10) (1/5) (3/10) (1/5)
        (fun _ => 1/2)).randSample := by
  intro h
  simp only [plot_two_stock_efficient_frontier] at h
  have hl1 : (0 : ℕ) <
      (randSample (1/5) (1/10) (1/5) (3/10) (1/5) (fun _ => 0)).length := by
    rw [length_randSample]
    norm_num [n_portfolios]
  have hl2 : (0 : ℕ) <
      (randSample (1/5) (1/10) (1/5) (3/10) (1/5) (fun _ => 1/2)).length := by
    rw [length_randSample]
    norm_num [n_portfolios]
  have h0 := congrArg (fun l => l.getD 0 ((0 : ℝ), (0 : ℚ))) h
  simp only at h0
  rw [List.getD_eq_getElem _ _ hl1, List.getD_eq_getElem _ _ hl2,
    getElem_randSample _ _ _ _ _ _ 0 hl1, getElem_randSample _ _ _ _ _ _ 0 hl2] at h0
  have h2 := congrArg Prod.snd h0
  simp only at h2
  norm_num [p_return] at h2

/-- C6 amended: the deterministic components really are reproducible from the
declared inputs alone: for identical inputs, two calls under any two ambient
random states have identical `curve`, `inefficient` and `efficient` segments
and `minVariance`; only the random sample can differ. -/
theorem C6_deterministic_components (mu_A mu_B sigma_A sigma_B corr_AB : ℚ)
    (rng rng' : ℕ → ℚ) :
    (plot_two_stock_efficient_frontier mu_A mu_B sigma_A sigma_B corr_AB rng).curve =
      (plot_two_stock_efficient_frontier mu_A mu_B sigma_A sigma_B corr_AB rng').curve ∧
    (plot_two_stock_efficient_frontier mu_A mu_B sigma_A sigma_B corr_AB rng).inefficient =
      (plot_two_stock_efficient_frontier mu_A mu_B sigma_A sigma_B corr_AB rng').inefficient ∧
    (plot_two_stock_efficient_frontier mu_A mu_B sigma_A sigma_B corr_AB rng).efficient =
      (plot_two_stock_efficient_frontier mu_A mu_B sigma_A sigma_B corr_AB rng').efficient ∧
    (plot_two_stock_efficient_frontier mu_A mu_B sigma_A sigma_B corr_AB rng).minVariance =
      (plot_two_stock_efficient_frontier mu_A mu_B sigma_A sigma_B corr_AB rng').minVariance :=
  ⟨rfl, rfl, rfl, rfl⟩

/-- C10: the expected return of every convex weight in `[0, 1]`, hence of
every curve point and of every random portfolio (random draws lie in
`[0, 1)`), lies between `min mu_A mu_B` and `max mu_A mu_B` inclusive. -/
theorem C10_return_bounds (mu_A mu_B sigma_A sigma_B corr_AB : ℚ) (rng : ℕ → ℚ)
    (hrng : ∀ i, 0 ≤ rng i ∧ rng i < 1) :
    (∀ w : ℚ, 0 ≤ w → w ≤ 1 →
      min mu_A mu_B ≤ p_return mu_A mu_B w ∧ p_return mu_A mu_B w ≤ max mu_A mu_B) ∧
    (∀ p ∈ curve mu_A mu_B sigma_A sigma_B corr_AB,
      min mu_A mu_B ≤ p.expectedReturn ∧ p.expectedReturn ≤ max mu_A mu_B) ∧
    (∀ q ∈ randSample mu_A mu_B sigma_A sigma_B corr_AB rng,
      min mu_A mu_B ≤ q.2 ∧ q.2 ≤ max mu_A mu_B) := by
  have hcore : ∀ w : ℚ, 0 ≤ w → w ≤ 1 →
      min mu_A mu_B ≤ p_return mu_A mu_B w ∧ p_return mu_A mu_B w ≤ max mu_A mu_B := by
    intro w hw0 hw1
    have hw1' : 0 ≤ 1 - w := by linarith
    have hmin1 : min mu_A mu_B ≤ mu_A := min_le_left _ _
    have hmin2 : min mu_A mu_B ≤ mu_B := min_le_right _ _
    have hmax1 : mu_A ≤ max mu_A mu_B := le_max_left _ _
    have hmax2 : mu_B ≤ max mu_A mu_B := le_max_right _ _
    have t1 := mul_nonneg hw0 (sub_nonneg.mpr hmin1)
    have t2 := mul_nonneg hw1' (sub_nonneg.mpr hmin2)
    have t3 := mul_nonneg hw0 (sub_nonneg.mpr hmax1)
    have t4 := mul_nonneg hw1' (sub_nonneg.mpr hmax2)
    unfold p_return
    constructor
    · nlinarith [t1, t2]
    · nlinarith [t3, t4]
  refine ⟨hcore, ?_, ?_⟩
  · intro p hp
    obtain ⟨w, hw, rfl⟩ := (mem_curve_iff mu_A mu_B sigma_A sigma_B corr_AB p).mp hp
    obtain ⟨hw0, hw1⟩ := weights_mem_bounds hw
    exact hcore w hw0 hw1
  · intro q hq
    simp only [randSample, rand_w, List.mem_map, List.mem_range] at hq
    obtain ⟨i, ⟨k, hk, rfl⟩, rfl⟩ := hq
    obtain ⟨h0, h1⟩ := hrng k
    exact hcore (rng k) h0 (le_of_lt h1)

/-- Witness for C10 at the default inputs with the constant draw stream
one half. -/
theorem C10_return_bounds_witness :
    (∀ i : ℕ, 0 ≤ (fun _ : ℕ => (1/2 : ℚ)) i ∧ (fun _ : ℕ => (1/2 : ℚ)) i < 1) ∧
    ((∀ w : ℚ, 0 ≤ w → w ≤ 1 →
       min (1/10 : ℚ) (3/20) ≤ p_return (1/10) (3/20) w ∧
       p_return (1/10) (3/20) w ≤ max (1/10 : ℚ) (3/20)) ∧
     (∀ p ∈ curve (1/10) (3/20) (1/5) (3/10) (1/5),
       min (1/10 : ℚ) (3/20) ≤ p.expectedReturn ∧
       p.expectedReturn ≤ max (1/10 : ℚ) (3/20)) ∧
     (∀ q ∈ randSample (1/10) (3/20) (1/5) (3/10) (1/5) (fun _ : ℕ => (1/2 : ℚ)),
       min (1/10 : ℚ) (3/20) ≤ q.2 ∧ q.2 ≤ max (1/10 : ℚ) (3/20))) :=
  ⟨fun _ => by norm_num,
   C10_return_bounds (1/10) (3/20) (1/5) (3/10) (1/5) (fun _ => 1/2)
     (fun _ => by norm_num)⟩

/-- With correlation 1 and volatilities 1/5 and 3/10 the variance is a
perfect square of an affine function of the weight. -/
theorem p_var_corr_one (w : ℚ) : p_var (1/5) (3/10) 1 w = ((3 - w) / 10) ^ 2 := by
  unfold p_var cov_AB
  ring

theorem idx_min_corr_one : idx_min (1/5) (3/10) 1 = 199 := by
  rw [idx_min_eq_firstArgmin_port_vars _ _ _ (by norm_num) (by norm_num) (by norm_num)
    (by norm_num)]
  apply firstArgmin_eq_of_unimodal _ 199
  · rw [length_port_vars]
    norm_num [n_points]
  · intro i hi h
    have hi0 : i < (port_vars (1/5) (3/10) 1).length := by omega
    rw [getElem_port_vars _ _ _ _ h, getElem_port_vars _ _ _ _ hi0,
      p_var_corr_one, p_var_corr_one]
    have hx : ((i : ℚ)) ≤ 198 := by
      have hle : i ≤ 198 := by omega
      exact_mod_cast hle
    have hx0 : (0 : ℚ) ≤ (i : ℚ) := by positivity
    push_cast
    have hlt : (3 - ((i : ℚ) + 1) / 199) / 10 < (3 - (i : ℚ) / 199) / 10 := by linarith
    have hnn : (0 : ℚ) ≤ (3 - ((i : ℚ) + 1) / 199) / 10 := by linarith
    rw [pow_two, pow_two]
    exact mul_self_lt_mul_self hnn hlt
  · intro i hi h
    rw [length_port_vars] at h
    norm_num [n_points] at h
    omega

/-- C8: with correlation exactly 1, `stdA = 0.20`, `stdB = 0.30` and any
means, the frontier is a straight line in (stdDev, return) space — any three
curve points are collinear — and the minimum stdDev is attained at the last
curve point, index 199 with `weightA = 1`: the lower-volatility asset alone
minimizes risk. -/
theorem C8_perfect_correlation (mu_A mu_B : ℚ) :
    idx_min (1/5) (3/10) 1 = 199 ∧
    (minVariancePoint mu_A mu_B (1/5) (3/10) 1).weightA = 1 ∧
    (∀ p ∈ curve mu_A mu_B (1/5) (3/10) 1, ∀ q ∈ curve mu_A mu_B (1/5) (3/10) 1,
     ∀ r ∈ curve mu_A mu_B (1/5) (3/10) 1,
      (q.stdDev - p.stdDev) *
          ((r.expectedReturn : ℝ) - (p.expectedReturn : ℝ)) =
        ((q.expectedReturn : ℝ) - (p.expectedReturn : ℝ)) *
          (r.stdDev - p.stdDev)) := by
  have hchar : ∀ p ∈ curve mu_A mu_B (1/5) (3/10) 1,
      ∃ w : ℚ, 0 ≤ w ∧ w ≤ 1 ∧
        p.stdDev = (((3 - w) / 10 : ℚ) : ℝ) ∧
        p.expectedReturn = p_return mu_A mu_B w := by
    intro p hp
    obtain ⟨w, hw, rfl⟩ := (mem_curve_iff mu_A mu_B (1/5) (3/10) 1 p).mp hp
    obtain ⟨hw0, hw1⟩ := weights_mem_bounds hw
    refine ⟨w, hw0, hw1, ?_, rfl⟩
    show Real.sqrt (p_var (1/5) (3/10) 1 w) = (((3 - w) / 10 : ℚ) : ℝ)
    rw [p_var_corr_one]
    push_cast
    have hwR : ((w : ℝ)) ≤ 1 := by exact_mod_cast hw1
    exact Real.sqrt_sq (by linarith)
  refine ⟨idx_min_corr_one, ?_, ?_⟩
  · have hjc : idx_min (1/5) (3/10) 1 < (curve mu_A mu_B (1/5) (3/10) 1).length := by
      rw [length_curve]
      exact idx_min_lt_n_points _ _ _
    rw [minVariancePoint_eq_getElem mu_A mu_B _ _ _ hjc]
    simp only [idx_min_corr_one]
    rw [getElem_curve mu_A mu_B _ _ _ 199 (by rw [length_curve]; norm_num [n_points])]
    show ((199 : ℕ) : ℚ) / 199 = 1
    norm_num
  · intro p hp q hq r hr
    obtain ⟨wp, _, _, hps, hpr⟩ := hchar p hp
    obtain ⟨wq, _, _, hqs, hqr⟩ := hchar q hq
    obtain ⟨wr, _, _, hrs, hrr⟩ := hchar r hr
    rw [hps, hpr, hqs, hqr, hrs, hrr]
    unfold p_return
    push_cast
    ring

set_option maxRecDepth 4000 in
theorem idx_min_default : idx_min (1/5) (3/10) (1/5) = 146 := by
  rw [idx_min_eq_firstArgmin_port_vars _ _ _ (by norm_num) (by norm_num) (by norm_num)
    (by norm_num)]
  apply firstArgmin_eq_of_unimodal _ 146
  · rw [length_port_vars]
    norm_num [n_points]
  · intro i hi h
    have hi0 : i < (port_vars (1/5) (3/10) (1/5)).length := by omega
    rw [getElem_port_vars _ _ _ _ h, getElem_port_vars _ _ _ _ hi0]
    have hx : ((i : ℚ)) ≤ 145 := by
      have hle : i ≤ 145 := by omega
      exact_mod_cast hle
    have hx0 : (0 : ℚ) ≤ (i : ℚ) := by positivity
    clear h hi0 hi
    unfold p_var cov_AB
    push_cast
    ring_nf
    nlinarith [hx, hx0]
  · intro i hi h
    rw [length_port_vars] at h
    have hi199 : i ≤ 198 := by
      norm_num [n_points] at h
      omega
    have hi0 : i < (port_vars (1/5) (3/10) (1/5)).length := by omega
    rw [getElem_port_vars _ _ _ _ hi0, getElem_port_vars _ _ _ _ h]
    have hx : (146 : ℚ) ≤ (i : ℚ) := by exact_mod_cast hi
    have hx9 : ((i : ℚ)) ≤ 198 := by exact_mod_cast hi199
    clear h hi0 hi hi199
    unfold p_var cov_AB
    push_cast
    ring_nf
    nlinarith [hx, hx9]

/-- C5 counterexample, at the reference UI's default inputs
(`mu_A = 0.10`, `mu_B = 0.15`, `sigma_A = 0.20`, `sigma_B = 0.30`,
`correlation = 0.20`): the curve point at index 150 belongs to the efficient
segment, yet the curve point at index 143 offers a strictly higher expected
return at a lower-or-equal standard deviation, so the efficient segment is
not the glossary-sense efficient frontier. -/
theorem C5_counterexample :
    (curve (1/10) (3/20) (1/5) (3/10) (1/5)).getD 150 default ∈
        efficientSeg (1/10) (3/20) (1/5) (3/10) (1/5) ∧
    (curve (1/10) (3/20) (1/5) (3/10) (1/5)).getD 143 default ∈
        curve (1/10) (3/20) (1/5) (3/10) (1/5) ∧
    ((curve (1/10) (3/20) (1/5) (3/10) (1/5)).getD 150 default).expectedReturn <
      ((curve (1/10) (3/20) (1/5) (3/10) (1/5)).getD 143 default).expectedReturn ∧
    ((curve (1/10) (3/20) (1/5) (3/10) (1/5)).getD 143 default).stdDev ≤
      ((curve (1/10) (3/20) (1/5) (3/10) (1/5)).getD 150 default).stdDev := by
  have hlen : (curve (1/10) (3/20) (1/5) (3/10) (1/5)).length = 200 := by
    rw [length_curve]
    rfl
  have h150 : (150 : ℕ) < (curve (1/10) (3/20) (1/5) (3/10) (1/5)).length := by omega
  have h143 : (143 : ℕ) < (curve (1/10) (3/20) (1/5) (3/10) (1/5)).length := by omega
  have hd150 : (curve (1/10) (3/20) (1/5) (3/10) (1/5)).getD 150 default =
      (curve (1/10) (3/20) (1/5) (3/10) (1/5))[150] := List.getD_eq_getElem _ _ h150
  have hd143 : (curve (1/10) (3/20) (1/5) (3/10) (1/5)).getD 143 default =
      (curve (1/10) (3/20) (1/5) (3/10) (1/5))[143] := List.getD_eq_getElem _ _ h143
  refine ⟨?_, ?_, ?_, ?_⟩
  · rw [hd150]
    unfold efficientSeg
    rw [idx_min_default]
    have h4 : (4 : ℕ) < ((curve (1/10) (3/20) (1/5) (3/10) (1/5)).drop 146).length := by
      rw [List.length_drop]
      omega
    have he : ((curve (1/10) (3/20) (1/5) (3/10) (1/5)).drop 146)[4] =
        (curve (1/10) (3/20) (1/5) (3/10) (1/5))[150] := by
      simp [List.getElem_drop]
    exact he ▸ List.getElem_mem h4
  · rw [hd143]
    exact List.getElem_mem h143
  · rw [hd150, hd143, getElem_curve _ _ _ _ _ 150 h150, getElem_curve _ _ _ _ _ 143 h143]
    show p_return (1/10) (3/20) (((150 : ℕ) : ℚ) / 199) <
      p_return (1/10) (3/20) (((143 : ℕ) : ℚ) / 199)
    norm_num [p_return]
  · rw [hd150, hd143, getElem_curve _ _ _ _ _ 150 h150, getElem_curve _ _ _ _ _ 143 h143]
    show Real.sqrt (p_var (1/5) (3/10) (1/5) (((143 : ℕ) : ℚ) / 199)) ≤
      Real.sqrt (p_var (1/5) (3/10) (1/5) (((150 : ℕ) : ℚ) / 199))
    apply Real.sqrt_le_sqrt
    have hq : p_var (1/5) (3/10) (1/5) (((143 : ℕ) : ℚ) / 199) ≤
        p_var (1/5) (3/10) (1/5) (((150 : ℕ) : ℚ) / 199) := by
      norm_num [p_var, cov_AB]
    exact_mod_cast hq

/-- C5 amended: every point of the efficient segment lies at or after the
minimum-variance point — its `weightA` is at least the minimum-variance
weight and its `stdDev` at least the minimal `stdDev`. The original
glossary-sense efficiency fails on the code: a point of the efficient
segment can be strictly dominated by an earlier curve point. -/
theorem C5_efficient_segment_suffix (mu_A mu_B sigma_A sigma_B corr_AB : ℚ)
    (hA : 0 ≤ sigma_A) (hB : 0 ≤ sigma_B) (h1 : -1 ≤ corr_AB) (h2 : corr_AB ≤ 1) :
    ∀ p ∈ efficientSeg mu_A mu_B sigma_A sigma_B corr_AB,
      (minVariancePoint mu_A mu_B sigma_A sigma_B corr_AB).stdDev ≤ p.stdDev ∧
      (minVariancePoint mu_A mu_B sigma_A sigma_B corr_AB).weightA ≤ p.weightA := by
  have hjn : idx_min sigma_A sigma_B corr_AB < n_points :=
    idx_min_lt_n_points sigma_A sigma_B corr_AB
  have hjc : idx_min sigma_A sigma_B corr_AB <
      (curve mu_A mu_B sigma_A sigma_B corr_AB).length := by
    rw [length_curve]
    exact hjn
  have hjs : idx_min sigma_A sigma_B corr_AB <
      (port_stdevs sigma_A sigma_B corr_AB).length := by
    rw [length_port_stdevs]
    exact hjn
  have hstd : ∀ i (hic : i < (curve mu_A mu_B sigma_A sigma_B corr_AB).length)
      (his : i < (port_stdevs sigma_A sigma_B corr_AB).length),
      (curve mu_A mu_B sigma_A sigma_B corr_AB)[i].stdDev =
        (port_stdevs sigma_A sigma_B corr_AB)[i] := by
    intro i hic his
    rw [getElem_curve mu_A mu_B sigma_A sigma_B corr_AB i hic,
      getElem_port_stdevs sigma_A sigma_B corr_AB i his]
    rfl
  have hwA : ∀ i (hic : i < (curve mu_A mu_B sigma_A sigma_B corr_AB).length),
      (curve mu_A mu_B sigma_A sigma_B corr_AB)[i].weightA = (i : ℚ) / 199 := by
    intro i hic
    rw [getElem_curve mu_A mu_B sigma_A sigma_B corr_AB i hic]
    rfl
  have hmvp := minVariancePoint_eq_getElem mu_A mu_B sigma_A sigma_B corr_AB hjc
  intro p hp
  obtain ⟨k, hk, rfl⟩ := List.mem_iff_getElem.mp hp
  have hk' : k < ((curve mu_A mu_B sigma_A sigma_B corr_AB).drop
      (idx_min sigma_A sigma_B corr_AB)).length := hk
  have hik : idx_min sigma_A sigma_B corr_AB + k <
      (curve mu_A mu_B sigma_A sigma_B corr_AB).length := by
    rw [List.length_drop] at hk'
    omega
  have hik' : idx_min sigma_A sigma_B corr_AB + k <
      (port_stdevs sigma_A sigma_B corr_AB).length := by
    rw [length_port_stdevs]
    rw [length_curve] at hik
    exact hik
  have he : (efficientSeg mu_A mu_B sigma_A sigma_B corr_AB)[k] =
      (curve mu_A mu_B sigma_A sigma_B corr_AB)[idx_min sigma_A sigma_B corr_AB + k] := by
    unfold efficientSeg
    exact List.getElem_drop _
  rw [he]
  constructor
  · rw [hmvp, hstd _ hjc hjs, hstd _ hik hik']
    exact firstArgmin_spec_le (port_stdevs sigma_A sigma_B corr_AB) _ hik' hjs
  · rw [hmvp, hwA _ hjc, hwA _ hik]
    gcongr
    exact_mod_cast Nat.le_add_right _ _

/-- Witness for the amended C5 at the reference UI's default inputs. -/
theorem C5_efficient_segment_suffix_witness :
    ((0 : ℚ) ≤ 1/5 ∧ (0 : ℚ) ≤ 3/10 ∧ (-1 : ℚ) ≤ 1/5 ∧ (1/5 : ℚ) ≤ 1) ∧
    (∀ p ∈ efficientSeg (1/10) (3/20) (1/5) (3/10) (1/5),
      (minVariancePoint (1/10) (3/20) (1/5) (3/10) (1/5)).stdDev ≤ p.stdDev ∧
      (minVariancePoint (1/10) (3/20) (1/5) (3/10) (1/5)).weightA ≤ p.weightA) :=
  ⟨⟨by norm_num, by norm_num, by norm_num, by norm_num⟩,
   C5_efficient_segment_suffix (1/10) (3/20) (1/5) (3/10) (1/5)
     (by norm_num) (by norm_num) (by norm_num) (by norm_num)⟩

end TwoAssetFrontier
